import Mathlib

/-!
Shallow embedding of the single-threaded actor runtime in `src/lib.rs`
(`doing-more-actors`): the `System` state (actor registry, per-tag FIFO
mailboxes, delayed-delivery queue, tick time, action inbox), the action
drain phase (`handle_actions`), the timer-firing phase (`handle_posts`),
the mailbox dispatch pass (`handle_actors`) and the main loop
(`action_loop`).

Modelling decisions, each matching the source:
* `u32` values are `Nat` with explicit `% 2 ^ 32` where the source wraps;
  the tick time is the wall clock truncated with `as u32`, and the Post
  deadline is `delay + sys.millis` in `u32` arithmetic.
* `HashMap` tables are association lists with `lookup`/`update`/`removeKey`
  mirroring `get`/`insert`/`remove` (unique keys in any reachable state).
* The `BinaryHeap<Post>` whose `Ord` compares only deadlines, reversed, is
  a deadline-ascending sorted list: `heapPush` inserts in order and the
  head is the minimum-deadline entry, as `peek`/`pop` return it.
  Equal-deadline tie order is implementation-defined in the source.
* The mpsc channel is a FIFO list `inbox`; `recv_timeout(0)` draining is
  processing the buffered list in order, and a `Context` send appends.
* An actor (`Actor::act`, which mutates `self` and may emit actions via
  its `Context`) is a pure behavior `act : A → T → Nat → M → A × List
  (Action T A M)`: new state plus the emitted actions in emission order;
  the `Nat` is `ctx.now`, which the loop sets to `sys.millis` each tick.
* The timer-firing `while` loop of `handle_posts` is not structurally
  terminating (at tick time `u32::MAX` it spins on an empty heap), so it
  is embedded with explicit fuel, `none` meaning the loop has not exited
  within the given fuel.
* A ghost `log` field records every `act` invocation as `(tag, now, msg)`;
  no runtime decision reads it.
-/

namespace DMA

/-- `2 ^ 32`, the modulus of `u32` arithmetic. -/
def U32 : Nat := 2 ^ 32

/-- `u32::MAX`, the sentinel deadline used by `handle_posts` on an empty heap. -/
def UMAX : Nat := 2 ^ 32 - 1

/-- The `Action` enum: runtime-mutating commands submitted through a `Context`. -/
inductive Action (T A M : Type) where
  | Bind : T → A → Action T A M
  | Send : T → M → Action T A M
  | Post : T → M → Nat → Action T A M
  | Stop : T → Action T A M
deriving DecidableEq

/-- The `System` struct: registry, mailboxes, delayed-delivery queue, tick
time, and the buffered channel contents; `log` is a ghost trace of `act`
invocations `(tag, now, message)`. -/
structure System (T A M : Type) where
  actors : List (T × A)
  queues : List (T × List M)
  posted : List (Nat × T × M)
  millis : Nat
  inbox : List (Action T A M)
  log : List (T × Nat × M)
deriving DecidableEq

variable {T A M : Type} [DecidableEq T]

/-- `HashMap::get`: first value bound to the key, if any. -/
def lookup {V : Type} (t : T) : List (T × V) → Option V
  | [] => none
  | (k, v) :: rest => if k = t then some v else lookup t rest

/-- `HashMap::insert`: replace the value at the key, or add a binding. -/
def update {V : Type} (t : T) (v : V) : List (T × V) → List (T × V)
  | [] => [(t, v)]
  | (k, w) :: rest => if k = t then (k, v) :: rest else (k, w) :: update t v rest

/-- `HashMap::remove`: drop the binding for the key. -/
def removeKey {V : Type} (t : T) : List (T × V) → List (T × V)
  | [] => []
  | (k, w) :: rest => if k = t then removeKey t rest else (k, w) :: removeKey t rest

/-- `BinaryHeap::push` for `Post` entries ordered ascending by deadline
(the source's `Ord` compares only the deadline, reversed so `pop` yields
the minimum): insert keeping the list sorted by deadline. -/
def heapPush (e : Nat × T × M) : List (Nat × T × M) → List (Nat × T × M)
  | [] => [e]
  | x :: xs => if e.1 < x.1 then e :: x :: xs else x :: heapPush e xs

/-- One drained action applied to the runtime tables (the `match` body of
`handle_actions`): `Bind` inserts into the registry, `Send` appends to the
tag's mailbox creating it if absent, `Post` resolves the relative delay
against the current tick time in `u32` arithmetic and pushes the entry,
`Stop` removes the registry entry. -/
def applyAction (st : System T A M) : Action T A M → System T A M
  | .Bind t a => { st with actors := update t a st.actors }
  | .Send t m =>
      { st with queues := update t ((lookup t st.queues).getD [] ++ [m]) st.queues }
  | .Post t m d =>
      { st with posted := heapPush ((d + st.millis) % U32, t, m) st.posted }
  | .Stop t => { st with actors := removeKey t st.actors }

/-- `handle_actions`: drain the buffered channel in FIFO order, applying
each action; actor logic is never invoked. -/
def handle_actions (st : System T A M) : System T A M :=
  st.inbox.foldl applyAction { st with inbox := [] }

/-- The body of one `handle_posts` pop: the entry is already removed; if
the tag still has a live registered actor, `act` runs with `now` equal to
the tick time, its state is stored back and its emitted actions are
appended to the channel buffer; otherwise the entry is discarded with no
other state change. -/
def fireOne (act : A → T → Nat → M → A × List (Action T A M))
    (st : System T A M) (e : Nat × T × M) : System T A M :=
  match lookup e.2.1 st.actors with
  | none => st
  | some a =>
      let r := act a e.2.1 st.millis e.2.2
      { st with
          actors := update e.2.1 r.1 st.actors
          inbox := st.inbox ++ r.2
          log := st.log ++ [(e.2.1, st.millis, e.2.2)] }

/-- The `while` loop of `handle_posts` with explicit fuel: while the
minimum deadline (or the sentinel `u32::MAX` on an empty heap) is at most
the tick time, pop and fire. `none` means the loop has not exited within
`fuel` iterations. -/
def handle_posts_aux (act : A → T → Nat → M → A × List (Action T A M)) :
    Nat → System T A M → Option (System T A M)
  | 0, _ => none
  | fuel + 1, st =>
      if ((st.posted.head?.map fun e => e.1).getD UMAX) ≤ st.millis then
        match st.posted with
        | [] => handle_posts_aux act fuel st
        | e :: rest => handle_posts_aux act fuel (fireOne act { st with posted := rest } e)
      else some st

/-- `handle_posts`: early return on an empty heap, else the firing loop;
the fuel `length + 1` is exactly enough whenever the loop exits at all. -/
def handle_posts (act : A → T → Nat → M → A × List (Action T A M))
    (st : System T A M) : Option (System T A M) :=
  if st.posted.isEmpty then some st
  else handle_posts_aux act (st.posted.length + 1) st

/-- One mailbox considered by `handle_actors`: an empty mailbox is
skipped; otherwise the front message is popped and, if the tag still has
a live actor, dispatched via `act`. -/
def stepMailbox (act : A → T → Nat → M → A × List (Action T A M))
    (st : System T A M) (pr : T × List M) : System T A M × (T × List M) :=
  match pr.2 with
  | [] => (st, pr)
  | m :: rest =>
      match lookup pr.1 st.actors with
      | none => (st, (pr.1, rest))
      | some a =>
          let r := act a pr.1 st.millis m
          ({ st with
              actors := update pr.1 r.1 st.actors
              inbox := st.inbox ++ r.2
              log := st.log ++ [(pr.1, st.millis, m)] }, (pr.1, rest))

/-- Traverse a list with a state accumulator, returning the final state
and the rewritten list (the shape of `iter_mut().for_each` over the
mailbox table, which rewrites each entry in place). -/
def mapAccum {σ β : Type} (f : σ → β → σ × β) : σ → List β → σ × List β
  | s, [] => (s, [])
  | s, x :: xs =>
      let r := f s x
      let r2 := mapAccum f r.1 xs
      (r2.1, r.2 :: r2.2)

/-- `handle_actors`: one pass over the mailbox table; each non-empty
mailbox has exactly its front message popped and dispatched if its actor
is live. -/
def handle_actors (act : A → T → Nat → M → A × List (Action T A M))
    (st : System T A M) : System T A M :=
  let r := mapAccum (stepMailbox act) st st.queues
  { r.1 with queues := r.2 }

/-- One iteration of `action_loop`: sample the clock into the tick time
(`as u32` truncation), drain actions, fire due timers, dispatch
mailboxes. `none` when the timer phase never exits. -/
def tick (act : A → T → Nat → M → A × List (Action T A M))
    (wall : Nat) (st : System T A M) : Option (System T A M) :=
  let st1 := handle_actions { st with millis := wall % U32 }
  (handle_posts act st1).map (handle_actors act)

/-- Run exactly `n` iterations of the loop body (no break check), the
`k`-th iteration sampling `clock k`. -/
def runTicks (act : A → T → Nat → M → A × List (Action T A M))
    (clock : Nat → Nat) : Nat → Nat → System T A M → Option (System T A M)
  | _, 0, st => some st
  | k, n + 1, st => (tick act (clock k) st).bind (runTicks act clock (k + 1) n)

/-- `action_loop` with explicit fuel: loop the tick body, breaking as soon
as the registry is empty after a full iteration; `none` when the loop has
not exited within `fuel` iterations (or a timer phase span). -/
def action_loop (act : A → T → Nat → M → A × List (Action T A M))
    (clock : Nat → Nat) : Nat → Nat → System T A M → Option (System T A M)
  | _, 0, _ => none
  | k, fuel + 1, st =>
      match tick act (clock k) st with
      | none => none
      | some st2 =>
          if st2.actors.isEmpty then some st2
          else action_loop act clock (k + 1) fuel st2

/-- `System::run` terminates: some fuel suffices for `action_loop` to
break out of the loop. -/
def loopTerminates (act : A → T → Nat → M → A × List (Action T A M))
    (clock : Nat → Nat) (st : System T A M) : Prop :=
  ∃ fuel st', action_loop act clock 0 fuel st = some st'

/-- The messages carried by the `Send` actions of a drained batch that
target a given tag, in drain (FIFO) order. -/
def msgsTo (t : T) : List (Action T A M) → List M
  | [] => []
  | .Send k m :: rest => if k = t then m :: msgsTo t rest else msgsTo t rest
  | _ :: rest => msgsTo t rest

/-- The delayed queue is sorted ascending by deadline (the invariant the
binary heap provides for `peek`/`pop`). -/
@[reducible]
def deadlineSorted (l : List (Nat × T × M)) : Prop :=
  l.Pairwise fun a b => a.1 ≤ b.1

/-- The tag `u` has no live actor, no `Bind` for it is buffered, and no
`act` invocation for it has been logged. -/
def unboundOK (u : T) (st : System T A M) : Prop :=
  lookup u st.actors = none ∧ (∀ x : A, Action.Bind u x ∉ st.inbox) ∧
    ∀ e ∈ st.log, e.1 ≠ u

/-- The behavior never emits a `Bind` for the tag `u`. -/
def neverBinds (act : A → T → Nat → M → A × List (Action T A M)) (u : T) : Prop :=
  ∀ (a : A) (t : T) (now : Nat) (m : M) (x : A), Action.Bind u x ∉ (act a t now m).2

/-- The ghost send-time of the message (if any) carried by an action. -/
def actionStamp (stamp : M → Nat) : Action T A M → Nat
  | .Send _ m => stamp m
  | .Post _ m _ => stamp m
  | .Bind _ _ => 0
  | .Stop _ => 0

/-- Every message anywhere in the runtime was sent no later than the
current tick time, and every logged `act` invocation received a message
sent no later than the `now` it observed. -/
@[reducible]
def Stamped (stamp : M → Nat) (st : System T A M) : Prop :=
  (∀ a ∈ st.inbox, actionStamp stamp a ≤ st.millis) ∧
  (∀ p ∈ st.queues, ∀ m ∈ p.2, stamp m ≤ st.millis) ∧
  (∀ e ∈ st.posted, stamp e.2.2 ≤ st.millis) ∧
  (∀ e ∈ st.log, stamp e.2.2 ≤ e.2.1)

/-- The behavior stamps every message it submits with a time no later
than the tick time `now()` it observes (the sender's observed tick
time). -/
def stampsOK (act : A → T → Nat → M → A × List (Action T A M))
    (stamp : M → Nat) : Prop :=
  ∀ (a : A) (t : T) (now : Nat) (m : M),
    ∀ x ∈ (act a t now m).2, actionStamp stamp x ≤ now

/-! ### Concrete fixtures used by the witness theorems -/

/-- Witness behavior: add the message into the actor state, emit nothing. -/
def actW : Nat → Nat → Nat → Nat → Nat × List (Action Nat Nat Nat) :=
  fun a _ _ m => (a + m, [])

/-- Witness state: one live actor (tag 1), two delayed entries of which
exactly one is due at tick time 5. -/
def stW : System Nat Nat Nat :=
  { actors := [(1, 0)], queues := [], posted := [(3, 1, 10), (7, 2, 20)],
    millis := 5, inbox := [], log := [] }

/-- Witness state at the sentinel tick time `u32::MAX`, with one pending
delayed entry for an unbound tag. -/
def stMax : System Nat Nat Nat :=
  { actors := [], queues := [], posted := [(0, 7, 0)],
    millis := UMAX, inbox := [], log := [] }

/-- Witness state for the mailbox pass: tag 1 live with two queued
messages, tag 2 dead with one queued message. -/
def stQ : System Nat Nat Nat :=
  { actors := [(1, 0)], queues := [(1, [10, 11]), (2, [20])], posted := [],
    millis := 5, inbox := [], log := [] }

/-- Counterexample state: empty registry, and the only buffered action
is a Post targeting the never-bound tag 7. -/
def stU : System Nat Nat Nat :=
  { actors := [], queues := [], posted := [], millis := 0,
    inbox := [Action.Post 7 0 0], log := [] }

/-- A wall clock pinned at `u32::MAX`. -/
def clockMax : Nat → Nat := fun _ => UMAX

/-- The state `stU` (without the Post) after its single tick at
`u32::MAX`: untouched except the sampled tick time. -/
def stUdone : System Nat Nat Nat :=
  { actors := [], queues := [], posted := [], millis := UMAX,
    inbox := [], log := [] }

/-- Witness state for the amended C6: empty registry, buffered `Send`,
`Post` and `Stop` all targeting the never-bound tag 7. -/
def stC6 : System Nat Nat Nat :=
  { actors := [], queues := [], posted := [], millis := 0,
    inbox := [Action.Send 7 5, Action.Post 7 6 0, Action.Stop 7], log := [] }

/-- The state `stC6` after its single tick at wall clock 1: tag 7's
Send created a mailbox whose message was popped unmatched, its Post
fired unmatched, its Stop removed nothing. -/
def stC6done : System Nat Nat Nat :=
  { actors := [], queues := [(7, [])], posted := [], millis := 1,
    inbox := [], log := [] }

/-- Witness behavior for C8: reply by sending the observed `now` as the
message payload (so the identity stamp is exactly the observed send
time). -/
def act8 : Nat → Nat → Nat → Nat → Nat × List (Action Nat Nat Nat) :=
  fun a _ now _ => (a, [Action.Send 0 now])

/-- Witness start state for C8: actor 0 with one queued message sent at
tick time 5. -/
def st8 : System Nat Nat Nat :=
  { actors := [(0, 0)], queues := [(0, [5])], posted := [], millis := 5,
    inbox := [], log := [] }

/-- `st8` after one tick at wall clock 10: the queued message was
dispatched at `now() = 10` and the reply (stamped 10) is buffered. -/
def st8done : System Nat Nat Nat :=
  { actors := [(0, 0)], queues := [(0, [])], posted := [], millis := 10,
    inbox := [Action.Send 0 10], log := [(0, 10, 5)] }

/-- A strictly increasing wall clock that crosses the `2^32` ms
boundary between the first and second sample: after the code's `as u32`
truncation the tick times are 4294967290 and then 5. -/
def clockWrap : Nat → Nat := fun j => 4294967290 + 11 * j

/-- Start state for the C8 wrap counterexample: actor 0 live with one
seed message queued at tick time 1. -/
def st8w : System Nat Nat Nat :=
  { actors := [(0, 0)], queues := [(0, [1])], posted := [], millis := 1,
    inbox := [], log := [] }

/-- `st8w` after two ticks of `clockWrap` under `act8`: on the first
tick (tick time 4294967290) the seed message is dispatched and the
actor sends a reply carrying its observed `now()` 4294967290; on the
second tick the truncated tick time has wrapped to 5 and that reply is
dispatched with `now() = 5`, earlier than its send time. -/
def st8wdone : System Nat Nat Nat :=
  { actors := [(0, 0)], queues := [(0, [])], posted := [], millis := 5,
    inbox := [Action.Send 0 5],
    log := [(0, 4294967290, 1), (0, 5, 4294967290)] }

/-! ### Association-list and heap laws -/

theorem lookup_update {V : Type} (k t : T) (v : V) (l : List (T × V)) :
    lookup t (update k v l) = if k = t then some v else lookup t l := by
  induction l with
  | nil => by_cases h : k = t <;> simp [update, lookup, h]
  | cons p rest ih =>
      obtain ⟨pk, pv⟩ := p
      by_cases h1 : pk = k
      · subst h1
        by_cases h2 : pk = t <;> simp [update, lookup, h2]
      · by_cases h2 : pk = t
        · subst h2
          have h4 : ¬ (k = pk) := fun he => h1 he.symm
          simp [update, lookup, h1, h4]
        · simp [update, lookup, h1, h2, ih]

theorem lookup_removeKey {V : Type} (k t : T) (l : List (T × V)) :
    lookup t (removeKey k l) = if k = t then none else lookup t l := by
  induction l with
  | nil => by_cases h : k = t <;> simp [removeKey, lookup, h]
  | cons p rest ih =>
      obtain ⟨pk, pv⟩ := p
      by_cases h1 : pk = k
      · subst h1
        by_cases h2 : pk = t
        · subst h2
          simp [removeKey, lookup, ih]
        · simp [removeKey, lookup, h2, ih]
      · by_cases h2 : pk = t
        · subst h2
          have h4 : ¬ (k = pk) := fun he => h1 he.symm
          simp [removeKey, lookup, h1, h4]
        · simp [removeKey, lookup, h1, h2, ih]

theorem mem_heapPush (e x : Nat × T × M) (l : List (Nat × T × M)) :
    x ∈ heapPush e l ↔ x = e ∨ x ∈ l := by
  induction l with
  | nil => simp [heapPush]
  | cons y ys ih =>
      by_cases h : e.1 < y.1
      · simp [heapPush, h]
      · simp [heapPush, h, ih]
        tauto

theorem heapPush_sorted (e : Nat × T × M) (l : List (Nat × T × M))
    (hs : deadlineSorted l) : deadlineSorted (heapPush e l) := by
  induction l with
  | nil => simp [heapPush, deadlineSorted]
  | cons y ys ih =>
      rw [deadlineSorted, List.pairwise_cons] at hs
      by_cases h : e.1 < y.1
      · rw [deadlineSorted, heapPush, if_pos h, List.pairwise_cons]
        constructor
        · intro z hz
          simp at hz
          rcases hz with hz | hz
          · exact hz ▸ Nat.le_of_lt h
          · exact Nat.le_trans (Nat.le_of_lt h) (hs.1 z hz)
        · rw [List.pairwise_cons]
          exact hs
      · rw [deadlineSorted, heapPush, if_neg h, List.pairwise_cons]
        constructor
        · intro z hz
          rw [mem_heapPush] at hz
          rcases hz with hz | hz
          · exact hz ▸ Nat.le_of_not_lt h
          · exact hs.1 z hz
        · exact ih hs.2

/-! ### Frame lemmas for the phases -/

theorem applyAction_millis (st : System T A M) (a : Action T A M) :
    (applyAction st a).millis = st.millis := by
  cases a <;> rfl

theorem applyAction_inbox (st : System T A M) (a : Action T A M) :
    (applyAction st a).inbox = st.inbox := by
  cases a <;> rfl

theorem applyAction_log (st : System T A M) (a : Action T A M) :
    (applyAction st a).log = st.log := by
  cases a <;> rfl

theorem foldl_applyAction_millis (l : List (Action T A M)) (st : System T A M) :
    (l.foldl applyAction st).millis = st.millis := by
  induction l generalizing st with
  | nil => rfl
  | cons a rest ih => rw [List.foldl_cons, ih, applyAction_millis]

theorem foldl_applyAction_inbox (l : List (Action T A M)) (st : System T A M) :
    (l.foldl applyAction st).inbox = st.inbox := by
  induction l generalizing st with
  | nil => rfl
  | cons a rest ih => rw [List.foldl_cons, ih, applyAction_inbox]

theorem foldl_applyAction_log (l : List (Action T A M)) (st : System T A M) :
    (l.foldl applyAction st).log = st.log := by
  induction l generalizing st with
  | nil => rfl
  | cons a rest ih => rw [List.foldl_cons, ih, applyAction_log]

theorem handle_actions_millis (st : System T A M) :
    (handle_actions st).millis = st.millis := by
  rw [handle_actions, foldl_applyAction_millis]

theorem handle_actions_inbox (st : System T A M) :
    (handle_actions st).inbox = [] := by
  rw [handle_actions, foldl_applyAction_inbox]

theorem handle_actions_log (st : System T A M) :
    (handle_actions st).log = st.log := by
  rw [handle_actions, foldl_applyAction_log]

variable (act : A → T → Nat → M → A × List (Action T A M))

theorem fireOne_millis (st : System T A M) (e : Nat × T × M) :
    (fireOne act st e).millis = st.millis := by
  rw [fireOne]
  cases lookup e.2.1 st.actors <;> rfl

theorem fireOne_posted (st : System T A M) (e : Nat × T × M) :
    (fireOne act st e).posted = st.posted := by
  rw [fireOne]
  cases lookup e.2.1 st.actors <;> rfl

theorem fireOne_queues (st : System T A M) (e : Nat × T × M) :
    (fireOne act st e).queues = st.queues := by
  rw [fireOne]
  cases lookup e.2.1 st.actors <;> rfl

theorem fireOne_set_posted (st : System T A M) (P : List (Nat × T × M))
    (e : Nat × T × M) :
    fireOne act { st with posted := P } e = { fireOne act st e with posted := P } := by
  rw [fireOne, fireOne]
  cases lookup e.2.1 st.actors <;> rfl

theorem fireOne_posted_irrel (st : System T A M) (P Q : List (Nat × T × M))
    (e : Nat × T × M) :
    fireOne act { st with posted := P } e
      = { fireOne act { st with posted := Q } e with posted := P } := by
  rw [fireOne, fireOne]
  cases lookup e.2.1 st.actors <;> rfl

theorem foldl_fireOne_posted (l : List (Nat × T × M)) (st : System T A M) :
    (l.foldl (fireOne act) st).posted = st.posted := by
  induction l generalizing st with
  | nil => rfl
  | cons e rest ih => rw [List.foldl_cons, ih, fireOne_posted]

theorem foldl_fireOne_millis (l : List (Nat × T × M)) (st : System T A M) :
    (l.foldl (fireOne act) st).millis = st.millis := by
  induction l generalizing st with
  | nil => rfl
  | cons e rest ih => rw [List.foldl_cons, ih, fireOne_millis]

theorem foldl_fireOne_queues (l : List (Nat × T × M)) (st : System T A M) :
    (l.foldl (fireOne act) st).queues = st.queues := by
  induction l generalizing st with
  | nil => rfl
  | cons e rest ih => rw [List.foldl_cons, ih, fireOne_queues]

/-! ### The timer-firing loop: characterization and termination -/

omit [DecidableEq T] in
theorem peek_cons (e : Nat × T × M) (rest : List (Nat × T × M)) :
    ((((e :: rest : List (Nat × T × M)).head?.map fun x => x.1).getD UMAX)) = e.1 := rfl

omit [DecidableEq T] in
theorem peek_nil :
    (((([] : List (Nat × T × M)).head?.map fun x => x.1).getD UMAX)) = UMAX := rfl

/-- Whenever the `handle_posts` loop exits, its effect is: the maximal
due prefix of the queue (deadline ≤ tick time) is removed and fired in
order, the rest is kept. -/
theorem handle_posts_aux_eq (fuel : Nat) :
    ∀ st st' : System T A M, handle_posts_aux act fuel st = some st' →
      st' = (st.posted.takeWhile fun e => decide (e.1 ≤ st.millis)).foldl (fireOne act)
        { st with posted := st.posted.dropWhile fun e => decide (e.1 ≤ st.millis) } := by
  induction fuel with
  | zero =>
      intro st st' h
      simp [handle_posts_aux] at h
  | succ fuel ih =>
      intro st st' h
      rw [handle_posts_aux] at h
      cases hp : st.posted with
      | nil =>
          rw [hp, peek_nil] at h
          by_cases hg : UMAX ≤ st.millis
          · rw [if_pos hg] at h
            have h2 := ih st st' h
            rw [hp] at h2
            simpa using h2
          · rw [if_neg hg] at h
            simp only [List.takeWhile_nil, List.dropWhile_nil, List.foldl_nil]
            have hst : st' = st := by
              injection h with h2
              exact h2.symm
            rw [hst, ← hp]
      | cons e rest =>
          rw [hp, peek_cons] at h
          by_cases hd : e.1 ≤ st.millis
          · rw [if_pos hd] at h
            have h2 := ih _ _ h
            simp only [fireOne_posted, fireOne_millis] at h2
            have htw : List.takeWhile (fun x => decide (x.1 ≤ st.millis)) (e :: rest)
                = e :: List.takeWhile (fun x => decide (x.1 ≤ st.millis)) rest := by
              simp [List.takeWhile_cons, hd]
            have hdw : List.dropWhile (fun x => decide (x.1 ≤ st.millis)) (e :: rest)
                = List.dropWhile (fun x => decide (x.1 ≤ st.millis)) rest := by
              simp [List.dropWhile_cons, hd]
            rw [htw, hdw, List.foldl_cons, fireOne_posted_irrel act st _ rest e]
            simp only [fireOne_millis]
            exact h2
          · rw [if_neg hd] at h
            have htw : List.takeWhile (fun x => decide (x.1 ≤ st.millis)) (e :: rest)
                = [] := by
              simp [List.takeWhile_cons, hd]
            have hdw : List.dropWhile (fun x => decide (x.1 ≤ st.millis)) (e :: rest)
                = e :: rest := by
              simp [List.dropWhile_cons, hd]
            rw [htw, hdw, List.foldl_nil]
            have hst : st' = st := by
              injection h with h2
              exact h2.symm
            rw [hst, ← hp]

/-- Below the sentinel tick time `u32::MAX`, the `handle_posts` loop
exits within `length + 1` iterations. -/
theorem handle_posts_aux_some (fuel : Nat) :
    ∀ st : System T A M, st.millis < UMAX → st.posted.length < fuel →
      (handle_posts_aux act fuel st).isSome = true := by
  induction fuel with
  | zero =>
      intro st hm hl
      exact absurd hl (Nat.not_lt_zero _)
  | succ fuel ih =>
      intro st hm hl
      rw [handle_posts_aux]
      cases hp : st.posted with
      | nil =>
          rw [peek_nil, if_neg (Nat.not_le_of_lt hm)]
          rfl
      | cons e rest =>
          rw [peek_cons]
          by_cases hd : e.1 ≤ st.millis
          · rw [if_pos hd]
            apply ih
            · rw [fireOne_millis]
              exact hm
            · rw [fireOne_posted]
              have : rest.length < fuel := by
                rw [hp] at hl
                simpa using Nat.lt_of_succ_lt_succ hl
              exact this
          · rw [if_neg hd]
            rfl

/-- Firing an entry never changes which tags have a live registered
actor: a live actor's state is replaced in place. -/
theorem fireOne_actors_isSome (st : System T A M) (e : Nat × T × M) (k : T) :
    (lookup k (fireOne act st e).actors).isSome = (lookup k st.actors).isSome := by
  rw [fireOne]
  cases hx : lookup e.2.1 st.actors with
  | none => rfl
  | some a =>
      simp only [lookup_update]
      by_cases hk : e.2.1 = k
      · rw [if_pos hk, ← hk, hx]
        rfl
      · rw [if_neg hk]

/-- Firing an entry logs exactly one `act` invocation when the tag is
live and none otherwise. -/
theorem fireOne_log (st : System T A M) (e : Nat × T × M) :
    (fireOne act st e).log
      = st.log ++ (if (lookup e.2.1 st.actors).isSome = true
          then [(e.2.1, st.millis, e.2.2)] else []) := by
  rw [fireOne]
  cases hx : lookup e.2.1 st.actors with
  | none => simp
  | some a => simp

theorem foldl_fireOne_actors_isSome (l : List (Nat × T × M)) (st : System T A M)
    (k : T) :
    (lookup k ((l.foldl (fireOne act) st).actors)).isSome
      = (lookup k st.actors).isSome := by
  induction l generalizing st with
  | nil => rfl
  | cons e rest ih => rw [List.foldl_cons, ih, fireOne_actors_isSome]

/-- Folding `fireOne` over a batch of entries logs exactly the entries
whose tag is live (liveness is stable across the fold), in order, each
with the current tick time. -/
theorem foldl_fireOne_log (l : List (Nat × T × M)) (st : System T A M) :
    (l.foldl (fireOne act) st).log
      = st.log ++ (l.filter fun e => (lookup e.2.1 st.actors).isSome).map
          fun e => (e.2.1, st.millis, e.2.2) := by
  induction l generalizing st with
  | nil => simp
  | cons e rest ih =>
      rw [List.foldl_cons, ih, fireOne_log, fireOne_millis]
      have hflt : (rest.filter fun x => (lookup x.2.1 (fireOne act st e).actors).isSome)
          = rest.filter fun x => (lookup x.2.1 st.actors).isSome := by
        apply List.filter_congr
        intro x _
        rw [fireOne_actors_isSome]
      rw [hflt]
      by_cases hl : (lookup e.2.1 st.actors).isSome = true
      · simp [List.filter_cons, hl]
      · simp [List.filter_cons, hl]

/-! ### Sorted-queue facts: the due prefix is all due entries -/

omit [DecidableEq T] in
theorem due_takeWhile_filter (c : Nat) (l : List (Nat × T × M))
    (hs : deadlineSorted l) :
    (l.takeWhile fun e => decide (e.1 ≤ c)) = l.filter fun e => decide (e.1 ≤ c) := by
  induction l with
  | nil => rfl
  | cons e rest ih =>
      rw [deadlineSorted, List.pairwise_cons] at hs
      by_cases hd : e.1 ≤ c
      · simp [List.takeWhile_cons, List.filter_cons, hd, ih hs.2]
      · have hrest : (rest.filter fun x => decide (x.1 ≤ c)) = [] := by
          rw [List.filter_eq_nil_iff]
          intro x hx
          have := hs.1 x hx
          simp only [decide_eq_true_eq]
          omega
        simp [List.takeWhile_cons, List.filter_cons, hd, hrest]

omit [DecidableEq T] in
theorem rest_dropWhile_filter (c : Nat) (l : List (Nat × T × M))
    (hs : deadlineSorted l) :
    (l.dropWhile fun e => decide (e.1 ≤ c)) = l.filter fun e => decide (c < e.1) := by
  induction l with
  | nil => rfl
  | cons e rest ih =>
      rw [deadlineSorted, List.pairwise_cons] at hs
      by_cases hd : e.1 ≤ c
      · have hce : ¬ (c < e.1) := by omega
        simp [List.dropWhile_cons, List.filter_cons, hd, hce, ih hs.2]
      · have hrest : (rest.filter fun x => decide (c < x.1)) = rest := by
          rw [List.filter_eq_self]
          intro x hx
          have := hs.1 x hx
          simp only [decide_eq_true_eq]
          omega
        have hce : c < e.1 := by omega
        simp [List.dropWhile_cons, List.filter_cons, hd, hce, hrest]

/-- An entry that does not satisfy the predicate is never removed by
`dropWhile` (only a prefix of satisfying entries is dropped). -/
theorem mem_dropWhile_of_not {α : Type} (p : α → Bool) (l : List α) (x : α)
    (hx : x ∈ l) (hp : p x = false) : x ∈ l.dropWhile p := by
  induction l with
  | nil => cases hx
  | cons y ys ih =>
      rcases List.mem_cons.mp hx with h | h
      · have hy : p y = false := h ▸ hp
        simp [List.dropWhile_cons, hy, h]
      · by_cases hy : p y = true
        · simp only [List.dropWhile_cons, hy, if_true]
          exact ih h
        · simp only [List.dropWhile_cons, Bool.not_eq_true] at hy
          simp [List.dropWhile_cons, hy]
          right
          exact h

/-- Characterization of the whole `handle_posts` phase below the
sentinel tick time: it returns, the due prefix has been fired in order,
the rest is kept. -/
theorem handle_posts_eq (st : System T A M) (hm : st.millis < UMAX) :
    handle_posts act st
      = some ((st.posted.takeWhile fun e => decide (e.1 ≤ st.millis)).foldl
          (fireOne act)
          { st with posted := st.posted.dropWhile fun e => decide (e.1 ≤ st.millis) }) := by
  rw [handle_posts]
  by_cases hp : st.posted.isEmpty
  · rw [if_pos hp]
    have hpl : st.posted = [] := List.isEmpty_iff.mp hp
    rw [hpl]
    simp only [List.takeWhile_nil, List.dropWhile_nil, List.foldl_nil]
    rw [← hpl]
  · rw [if_neg hp]
    have hs := handle_posts_aux_some act (st.posted.length + 1) st hm (Nat.lt_succ_self _)
    obtain ⟨st', hst⟩ := Option.isSome_iff_exists.mp hs
    rw [hst, handle_posts_aux_eq act _ _ _ hst]

/-- At tick time exactly `u32::MAX` the loop guard `peek.unwrap_or(MAX) ≤
millis` is always true (every `u32` deadline is ≤ `MAX`, and so is the
empty-heap sentinel), so the loop never exits, for any fuel. -/
theorem handle_posts_aux_diverges (fuel : Nat) :
    ∀ st : System T A M, st.millis = UMAX → (∀ e ∈ st.posted, e.1 < U32) →
      handle_posts_aux act fuel st = none := by
  induction fuel with
  | zero =>
      intro st _ _
      rfl
  | succ fuel ih =>
      intro st hm hb
      rw [handle_posts_aux]
      cases hp : st.posted with
      | nil =>
          rw [peek_nil, if_pos (by rw [hm])]
          exact ih st hm hb
      | cons e rest =>
          rw [peek_cons]
          have he : e.1 ≤ st.millis := by
            have h1 : e.1 < U32 := hb e (by rw [hp]; exact List.mem_cons_self e rest)
            rw [hm, UMAX]
            rw [U32] at h1
            omega
          rw [if_pos he]
          apply ih
          · rw [fireOne_millis]
            exact hm
          · rw [fireOne_posted]
            intro x hx
            exact hb x (by rw [hp]; exact List.mem_cons_of_mem e hx)

/-- The timer phase, when it returns, leaves exactly the non-due suffix
of the queue (entries are only removed by the firing loop). -/
theorem handle_posts_posted (st st' : System T A M)
    (h : handle_posts act st = some st') :
    st'.posted = st.posted.dropWhile fun e => decide (e.1 ≤ st.millis) := by
  rw [handle_posts] at h
  by_cases hp : st.posted.isEmpty
  · rw [if_pos hp] at h
    injection h with h2
    have hpl : st.posted = [] := List.isEmpty_iff.mp hp
    rw [← h2, hpl]
    rfl
  · rw [if_neg hp] at h
    rw [handle_posts_aux_eq act _ _ _ h, foldl_fireOne_posted]

theorem handle_posts_millis (st st' : System T A M)
    (h : handle_posts act st = some st') :
    st'.millis = st.millis := by
  rw [handle_posts] at h
  by_cases hp : st.posted.isEmpty
  · rw [if_pos hp] at h
    injection h with h2
    rw [← h2]
  · rw [if_neg hp] at h
    rw [handle_posts_aux_eq act _ _ _ h, foldl_fireOne_millis]

theorem stepMailbox_millis (st : System T A M) (pr : T × List M) :
    ((stepMailbox act st pr).1).millis = st.millis := by
  obtain ⟨pk, q⟩ := pr
  cases q with
  | nil => rfl
  | cons m rest =>
      rw [stepMailbox]
      cases lookup pk st.actors <;> rfl

theorem mapAccum_stepMailbox_millis (pairs : List (T × List M)) :
    ∀ st : System T A M,
      ((mapAccum (stepMailbox act) st pairs).1).millis = st.millis := by
  induction pairs with
  | nil => intro st; rfl
  | cons p ps ih =>
      intro st
      rw [mapAccum]
      simp only []
      rw [ih, stepMailbox_millis]

theorem handle_actors_millis (st : System T A M) :
    (handle_actors act st).millis = st.millis := by
  rw [handle_actors]
  exact mapAccum_stepMailbox_millis act st.queues st

/-- The tick time of a completed loop iteration is the sampled wall
clock truncated to `u32`, unchanged by the three phases. -/
theorem tick_millis (w : Nat) (st st' : System T A M)
    (h : tick act w st = some st') : st'.millis = w % U32 := by
  rw [tick] at h
  cases hp : handle_posts act (handle_actions { st with millis := w % U32 }) with
  | none => rw [hp] at h; cases h
  | some s2 =>
      rw [hp] at h
      injection h with h2
      rw [← h2, handle_actors_millis, handle_posts_millis act _ _ hp,
        handle_actions_millis]

/-! ### Claim theorems -/

/-- C1. After the drain phase of a tick, every entry in the
delayed-delivery queue whose deadline is ≤ the current tick time is
removed, in ascending deadline order (the filtered prefix of the sorted
queue, folded left-to-right); each removed entry is dispatched via `act`
iff its tag has a live registered actor at that moment (the log gains
exactly the live-tagged due entries, in order), and a dead-tagged entry
is discarded with no other state change (`fireOne` is the identity on
it). Stated below the sentinel tick time `u32::MAX`, where the firing
loop exits (see the C9 theorem for the sentinel pathology). -/
theorem handle_posts_drains_due (st : System T A M)
    (hs : deadlineSorted st.posted) (hm : st.millis < UMAX) :
    ∃ st', handle_posts act st = some st' ∧
      st' = (st.posted.filter fun e => decide (e.1 ≤ st.millis)).foldl (fireOne act)
        { st with posted := st.posted.filter fun e => decide (st.millis < e.1) } ∧
      st'.posted = (st.posted.filter fun e => decide (st.millis < e.1)) ∧
      st'.log = st.log
        ++ (((st.posted.filter fun e => decide (e.1 ≤ st.millis)).filter
              fun e => (lookup e.2.1 st.actors).isSome).map
            fun e => (e.2.1, st.millis, e.2.2)) := by
  have he := handle_posts_eq act st hm
  rw [due_takeWhile_filter _ _ hs, rest_dropWhile_filter _ _ hs] at he
  refine ⟨_, he, rfl, ?_, ?_⟩
  · rw [foldl_fireOne_posted]
  · rw [foldl_fireOne_log]

/-- Witness for C1 at the concrete fixture `stW`. -/
theorem handle_posts_drains_due_witness :
    deadlineSorted stW.posted ∧ stW.millis < UMAX ∧
    (∃ st', handle_posts actW stW = some st' ∧
      st' = (stW.posted.filter fun e => decide (e.1 ≤ stW.millis)).foldl (fireOne actW)
        { stW with posted := stW.posted.filter fun e => decide (stW.millis < e.1) } ∧
      st'.posted = (stW.posted.filter fun e => decide (stW.millis < e.1)) ∧
      st'.log = stW.log
        ++ (((stW.posted.filter fun e => decide (e.1 ≤ stW.millis)).filter
              fun e => (lookup e.2.1 stW.actors).isSome).map
            fun e => (e.2.1, stW.millis, e.2.2))) :=
  ⟨by decide, by decide, handle_posts_drains_due actW stW (by decide) (by decide)⟩

/-- C9. The timer-firing phase returns on every tick whose tick time is
strictly below `u32::MAX`; at tick time exactly `u32::MAX` the loop
condition (`peek` replaced by the sentinel `u32::MAX` once the queue is
empty) stays true, and the loop never returns, whatever the fuel. -/
theorem timer_phase_termination (st : System T A M) :
    (st.millis < UMAX → (handle_posts act st).isSome = true) ∧
    (st.millis = UMAX → (∀ e ∈ st.posted, e.1 < U32) →
      ∀ fuel, handle_posts_aux act fuel st = none) := by
  constructor
  · intro hm
    rw [handle_posts]
    by_cases hp : st.posted.isEmpty
    · rw [if_pos hp]
      rfl
    · rw [if_neg hp]
      exact handle_posts_aux_some act _ st hm (Nat.lt_succ_self _)
  · intro hm hb fuel
    exact handle_posts_aux_diverges act fuel st hm hb

/-- Witness for C9: the phase returns at tick time 5 on `stW`, and spins
forever (here: fuel 5) at tick time `u32::MAX` on `stMax`. -/
theorem timer_phase_termination_witness :
    (handle_posts actW stW).isSome = true ∧ handle_posts_aux actW 5 stMax = none :=
  ⟨(timer_phase_termination actW stW).1 (by decide),
   (timer_phase_termination actW stMax).2 (by decide) (by decide) 5⟩

/-- C3. A Post action with relative delay `d` drained while the tick
time is `s` stores the absolute deadline `s + d` (resolved against the
tick time at drain time; no overflow assumed here, the wrapped case is
the C10 theorem), and any timer phase run at a tick time strictly below
an entry's deadline leaves that entry in the queue, so it is dispatched
on no such tick. -/
theorem post_deadline_resolved_at_drain (st : System T A M) (t : T) (m : M)
    (d : Nat) (hof : st.millis + d < U32) :
    (st.millis + d, t, m) ∈ (applyAction st (Action.Post t m d)).posted ∧
    (∀ st2 st3 : System T A M, handle_posts act st2 = some st3 →
      ∀ e : Nat × T × M, e ∈ st2.posted → st2.millis < e.1 → e ∈ st3.posted) := by
  constructor
  · have hmod : (d + st.millis) % U32 = st.millis + d := by
      rw [Nat.add_comm]
      exact Nat.mod_eq_of_lt hof
    simp only [applyAction, hmod]
    rw [mem_heapPush]
    left
    rfl
  · intro st2 st3 h e he hlt
    rw [handle_posts_posted act st2 st3 h]
    apply mem_dropWhile_of_not _ _ _ he
    exact decide_eq_false (by omega)

/-- Witness for C3 at the fixture `stW` (deadline 15 stored; the entry
with deadline 7 > tick time 5 survives the timer phase of `stW`). -/
theorem post_deadline_resolved_at_drain_witness :
    stW.millis + 10 < U32 ∧
    (stW.millis + 10, 1, 0) ∈ (applyAction stW (Action.Post 1 0 10)).posted :=
  ⟨by decide, (post_deadline_resolved_at_drain actW stW 1 0 10 (by decide)).1⟩

/-- C10. The absolute deadline of a drained Post is `(delay + tick time)
mod 2^32` (`u32` wrapping arithmetic); whenever `tick time + delay`
reaches `2^32` the wrapped deadline is strictly below the tick time, so
the entry is already due on the current tick rather than after the
requested delay; and the tick time of a completed iteration is the
sampled wall clock truncated to `u32`. -/
theorem post_deadline_wraps_mod_u32 (st : System T A M) (t : T) (m : M)
    (d : Nat) :
    ((d + st.millis) % U32, t, m) ∈ (applyAction st (Action.Post t m d)).posted ∧
    (st.millis < U32 → d < U32 → U32 ≤ st.millis + d →
      (d + st.millis) % U32 < st.millis) ∧
    (∀ (w : Nat) (st' : System T A M), tick act w st = some st' →
      st'.millis = w % U32) := by
  refine ⟨?_, ?_, ?_⟩
  · simp only [applyAction]
    rw [mem_heapPush]
    left
    rfl
  · intro h1 h2 h3
    have hU : U32 = 4294967296 := by norm_num [U32]
    rw [hU] at h1 h2 h3 ⊢
    omega
  · intro w st' h
    exact tick_millis act w st st' h

/-- Witness for C10: at tick time `u32::MAX` a Post with delay 1 wraps
to deadline 0, already due. -/
theorem post_deadline_wraps_mod_u32_witness :
    stMax.millis < U32 ∧ (1 : Nat) < U32 ∧ U32 ≤ stMax.millis + 1 ∧
    (1 + stMax.millis) % U32 < stMax.millis :=
  ⟨by decide, by decide, by decide,
   (post_deadline_wraps_mod_u32 actW stMax 7 0 1).2.1 (by decide) (by decide)
     (by decide)⟩

/-- C7. Draining `Stop(t)` removes only the registry entry for `t`: the
mailbox table and the delayed queue (and the channel buffer) are
untouched; a leftover delayed entry for `t` reached later is discarded
with no state change at all, and a leftover mailbox message for `t`
reached later is popped with no dispatch and no other change. -/
theorem stop_removes_only_registry_entry (st : System T A M) (t : T) :
    ((applyAction st (Action.Stop t)).actors = removeKey t st.actors ∧
     (applyAction st (Action.Stop t)).queues = st.queues ∧
     (applyAction st (Action.Stop t)).posted = st.posted ∧
     (applyAction st (Action.Stop t)).inbox = st.inbox) ∧
    (∀ (st2 : System T A M) (dl : Nat) (m : M), lookup t st2.actors = none →
      fireOne act st2 (dl, t, m) = st2) ∧
    (∀ (st2 : System T A M) (m : M) (q : List M), lookup t st2.actors = none →
      stepMailbox act st2 (t, m :: q) = (st2, (t, q))) := by
  refine ⟨⟨rfl, rfl, rfl, rfl⟩, ?_, ?_⟩
  · intro st2 dl m h
    rw [fireOne]
    simp [h]
  · intro st2 m q h
    rw [stepMailbox]
    simp [h]

/-- Witness for C7: stopping tag 1 in `stW` leaves its mailbox table and
delayed queue intact; a delayed entry and a mailbox message for the
unbound tag 7 of `stMax` are discarded unmatched. -/
theorem stop_removes_only_registry_entry_witness :
    (applyAction stW (Action.Stop 1)).posted = stW.posted ∧
    fireOne actW stMax (0, 7, 0) = stMax ∧
    stepMailbox actW stMax (7, [4]) = (stMax, (7, [])) :=
  ⟨((stop_removes_only_registry_entry actW stW 1).1).2.2.1,
   (stop_removes_only_registry_entry actW stW 7).2.1 stMax 0 0 (by decide),
   (stop_removes_only_registry_entry actW stW 7).2.2 stMax 4 [] (by decide)⟩

/-! ### Mailbox lemmas: drain appends in order, the pass pops the front -/

theorem lookup_map {V W : Type} (g : V → W) (t : T) (l : List (T × V)) :
    lookup t (l.map fun p => (p.1, g p.2)) = (lookup t l).map g := by
  induction l with
  | nil => rfl
  | cons p rest ih =>
      obtain ⟨pk, pv⟩ := p
      by_cases h : pk = t <;> simp [lookup, h, ih]

/-- Draining a batch of actions appends exactly its Send payloads for a
tag, in drain order, to that tag's mailbox, creating the mailbox if it
was absent and any Send targets it. -/
theorem lookup_foldl_applyAction_queues [DecidableEq M] (l : List (Action T A M)) :
    ∀ (st : System T A M) (t : T),
      lookup t (l.foldl applyAction st).queues
        = if msgsTo t l = [] then lookup t st.queues
          else some ((lookup t st.queues).getD [] ++ msgsTo t l) := by
  induction l with
  | nil =>
      intro st t
      simp [msgsTo]
  | cons a rest ih =>
      intro st t
      rw [List.foldl_cons, ih]
      cases a with
      | Send k m =>
          by_cases hk : k = t
          · subst hk
            have hq : lookup k (applyAction st (Action.Send k m)).queues
                = some ((lookup k st.queues).getD [] ++ [m]) := by
              simp [applyAction, lookup_update]
            have hm : msgsTo k (Action.Send k m :: rest) = m :: msgsTo k rest := by
              simp [msgsTo]
            rw [hq, hm]
            by_cases hr : msgsTo k rest = []
            · simp [hr]
            · simp [hr]
          · have hq : lookup t (applyAction st (Action.Send k m)).queues
                = lookup t st.queues := by
              simp [applyAction, lookup_update, hk]
            have hm : msgsTo t (Action.Send k m :: rest) = msgsTo t rest := by
              simp [msgsTo, hk]
            rw [hq, hm]
      | Bind k a0 =>
          have hm : msgsTo t (Action.Bind k a0 :: rest) = msgsTo t rest := by
            simp [msgsTo]
          rw [hm]
          rfl
      | Post k m0 d0 =>
          have hm : msgsTo t (Action.Post k m0 d0 :: rest) = msgsTo t rest := by
            simp [msgsTo]
          rw [hm]
          rfl
      | Stop k =>
          have hm : msgsTo t (Action.Stop k :: rest) = msgsTo t rest := by
            simp [msgsTo]
          rw [hm]
          rfl

theorem stepMailbox_snd (st : System T A M) (pr : T × List M) :
    (stepMailbox act st pr).2 = (pr.1, pr.2.drop 1) := by
  obtain ⟨pk, q⟩ := pr
  cases q with
  | nil => rfl
  | cons m rest =>
      rw [stepMailbox]
      cases lookup pk st.actors <;> rfl

/-- The mailbox pass rewrites each table entry to the same tag with its
front message dropped. -/
theorem mapAccum_stepMailbox_queues (pairs : List (T × List M)) :
    ∀ st : System T A M,
      (mapAccum (stepMailbox act) st pairs).2
        = pairs.map fun p => (p.1, p.2.drop 1) := by
  induction pairs with
  | nil => intro st; rfl
  | cons p ps ih =>
      intro st
      rw [mapAccum]
      simp only []
      rw [List.map_cons, ih, stepMailbox_snd]

theorem handle_actors_queues (st : System T A M) (t : T) :
    lookup t (handle_actors act st).queues
      = (lookup t st.queues).map fun q => q.drop 1 := by
  rw [handle_actors]
  simp only []
  rw [mapAccum_stepMailbox_queues]
  exact lookup_map (fun q => q.drop 1) t st.queues

/-- One considered mailbox adds at most one log event, and only for its
own tag. -/
theorem stepMailbox_log_count (st : System T A M) (pr : T × List M) :
    ∃ ev, ((stepMailbox act st pr).1).log = st.log ++ ev ∧
      ∀ t : T, (ev.countP fun e => decide (e.1 = t)) ≤ if pr.1 = t then 1 else 0 := by
  obtain ⟨pk, q⟩ := pr
  cases q with
  | nil =>
      refine ⟨[], by simp [stepMailbox], ?_⟩
      intro t
      simp only [List.countP_nil]
      exact Nat.zero_le _
  | cons m rest =>
      cases hl : lookup pk st.actors with
      | none =>
          refine ⟨[], by simp [stepMailbox, hl], ?_⟩
          intro t
          simp only [List.countP_nil]
          exact Nat.zero_le _
      | some a =>
          refine ⟨[(pk, st.millis, m)], by simp [stepMailbox, hl], ?_⟩
          intro t
          by_cases ht : pk = t
          · simp [List.countP_cons, ht]
          · simp [List.countP_cons, ht]

/-- Over the whole pass, the log gains at most as many events per tag as
the tag has entries in the mailbox table. -/
theorem mapAccum_stepMailbox_log (pairs : List (T × List M)) :
    ∀ st : System T A M,
      ∃ ev, ((mapAccum (stepMailbox act) st pairs).1).log = st.log ++ ev ∧
        ∀ t : T, (ev.countP fun e => decide (e.1 = t)) ≤ (pairs.map Prod.fst).count t := by
  induction pairs with
  | nil =>
      intro st
      refine ⟨[], by simp [mapAccum], ?_⟩
      intro t
      simp only [List.countP_nil]
      exact Nat.zero_le _
  | cons p ps ih =>
      intro st
      obtain ⟨ev1, hev1, hcnt1⟩ := stepMailbox_log_count act st p
      obtain ⟨ev2, hev2, hcnt2⟩ := ih ((stepMailbox act st p).1)
      refine ⟨ev1 ++ ev2, ?_, ?_⟩
      · rw [mapAccum]
        simp only []
        rw [hev2, hev1, List.append_assoc]
      · intro t
        rw [List.countP_append, List.map_cons, List.count_cons]
        simp only [beq_iff_eq]
        have h1 := hcnt1 t
        have h2 := hcnt2 t
        by_cases ht : p.1 = t
        · rw [if_pos ht] at h1 ⊢
          omega
        · rw [if_neg ht] at h1 ⊢
          omega

/-- C4. Within a single tick's mailbox-dispatch pass, each tag has at
most one message removed from its mailbox (the pass rewrites the tag's
mailbox to its tail — `drop 1` — however many messages are queued) and
at most one mailbox-sourced `act` invocation (at most one new log event
carries the tag, given the unique keys of the `HashMap` table). -/
theorem mailbox_dispatch_once_per_tag (st : System T A M) (t : T)
    (hnd : (st.queues.map Prod.fst).Nodup) :
    lookup t (handle_actors act st).queues
      = (lookup t st.queues).map (fun q => q.drop 1) ∧
    ∃ ev, (handle_actors act st).log = st.log ++ ev ∧
      (ev.countP fun e => decide (e.1 = t)) ≤ 1 := by
  constructor
  · exact handle_actors_queues act st t
  · obtain ⟨ev, hev, hcnt⟩ := mapAccum_stepMailbox_log act st.queues st
    refine ⟨ev, ?_, ?_⟩
    · rw [handle_actors]
      simp only []
      exact hev
    · calc (ev.countP fun e => decide (e.1 = t)) ≤ (st.queues.map Prod.fst).count t :=
            hcnt t
        _ ≤ 1 := List.nodup_iff_count_le_one.mp hnd t

/-- Witness for C4 at the fixture `stQ`: tag 1's mailbox loses exactly
its front message and at most one new log event carries tag 1. -/
theorem mailbox_dispatch_once_per_tag_witness :
    (stQ.queues.map Prod.fst).Nodup ∧
    (lookup 1 (handle_actors actW stQ).queues
      = (lookup 1 stQ.queues).map (fun q => q.drop 1) ∧
    ∃ ev, (handle_actors actW stQ).log = stQ.log ++ ev ∧
      (ev.countP fun e => decide (e.1 = 1)) ≤ 1) :=
  ⟨by decide, mailbox_dispatch_once_per_tag actW stQ 1 (by decide)⟩

/-- C5. Mailbox delivery is FIFO per tag: a drained `Send` appends the
message to the back of the tag's mailbox (creating it if absent), a
whole drained batch appends its Sends for the tag in drain order, and
the dispatch pass removes exactly the front message, so messages
drained into the same mailbox are dispatched in drain order. -/
theorem mailbox_fifo [DecidableEq M] (st : System T A M) (t : T) (m : M) :
    lookup t (applyAction st (Action.Send t m)).queues
      = some ((lookup t st.queues).getD [] ++ [m]) ∧
    (msgsTo t st.inbox ≠ [] →
      lookup t (handle_actions st).queues
        = some ((lookup t st.queues).getD [] ++ msgsTo t st.inbox)) ∧
    (∀ (m0 : M) (q : List M), lookup t st.queues = some (m0 :: q) →
      lookup t (handle_actors act st).queues = some q) := by
  refine ⟨?_, ?_, ?_⟩
  · simp [applyAction, lookup_update]
  · intro hne
    rw [handle_actions, lookup_foldl_applyAction_queues, if_neg hne]
  · intro m0 q hq
    rw [handle_actors_queues, hq]
    rfl

/-- Witness for C5 at the fixture `stQ` with a fresh message 12 for
tag 1. -/
theorem mailbox_fifo_witness :
    lookup 1 (applyAction stQ (Action.Send 1 12)).queues
      = some ((lookup 1 stQ.queues).getD [] ++ [12]) ∧
    lookup 1 (handle_actors actW stQ).queues = some [11] :=
  ⟨(mailbox_fifo actW stQ 1 12).1,
   (mailbox_fifo actW stQ 1 12).2.2 10 [11] (by decide)⟩

/-! ### The main loop: termination is exactly registry emptiness -/

variable (clock : Nat → Nat)

/-- If the loop breaks, it does so right after some iteration's full
drain/timer/dispatch sequence ended with an empty registry. -/
theorem action_loop_terminates (fuel : Nat) :
    ∀ (k : Nat) (st st' : System T A M),
      action_loop act clock k fuel st = some st' →
      ∃ n, runTicks act clock k (n + 1) st = some st' ∧ st'.actors.isEmpty = true := by
  induction fuel with
  | zero =>
      intro k st st' h
      cases h
  | succ fuel ih =>
      intro k st st' h
      rw [action_loop] at h
      cases ht : tick act (clock k) st with
      | none => simp [ht] at h
      | some st2 =>
          simp only [ht] at h
          by_cases he : st2.actors.isEmpty = true
          · rw [if_pos he] at h
            injection h with h2
            refine ⟨0, ?_, ?_⟩
            · rw [runTicks, ht]
              simp [runTicks, h2]
            · rw [← h2]
              exact he
          · rw [if_neg he] at h
            obtain ⟨n, hn, hne⟩ := ih (k + 1) st2 st' h
            refine ⟨n + 1, ?_, hne⟩
            rw [runTicks, ht]
            simpa using hn

/-- If some iteration's full sequence ends with an empty registry, the
loop breaks (pending mailbox messages or delayed entries are not
consulted by the break test). -/
theorem runTicks_empty_terminates (n : Nat) :
    ∀ (k : Nat) (st st' : System T A M),
      runTicks act clock k (n + 1) st = some st' → st'.actors.isEmpty = true →
      ∃ fuel st2, action_loop act clock k fuel st = some st2 := by
  induction n with
  | zero =>
      intro k st st' h he
      rw [runTicks] at h
      cases ht : tick act (clock k) st with
      | none => simp [ht] at h
      | some s2 =>
          rw [ht, Option.some_bind, runTicks] at h
          injection h with h2
          refine ⟨1, st', ?_⟩
          simp [action_loop, ht, h2, he]
  | succ n ih =>
      intro k st st' h he
      rw [runTicks] at h
      cases ht : tick act (clock k) st with
      | none => simp [ht] at h
      | some s2 =>
          rw [ht, Option.some_bind] at h
          by_cases he2 : s2.actors.isEmpty = true
          · exact ⟨1, s2, by simp [action_loop, ht, he2]⟩
          · obtain ⟨fuel, st2, hf⟩ := ih (k + 1) s2 st' h he
            exact ⟨fuel + 1, st2, by simp [action_loop, ht, he2, hf]⟩

/-- C2. The main loop terminates iff, at the end of some iteration's
drain-actions, fire-timers, dispatch-mailboxes sequence, the actor
registry is empty; the break test reads only the registry, so pending
mailbox messages or delayed entries alone never keep the loop alive. -/
theorem loop_terminates_iff_registry_empty (st : System T A M) :
    loopTerminates act clock st ↔
      ∃ (n : Nat) (st' : System T A M),
        runTicks act clock 0 (n + 1) st = some st' ∧ st'.actors.isEmpty = true := by
  constructor
  · rintro ⟨fuel, st', h⟩
    obtain ⟨n, hn, hne⟩ := action_loop_terminates act clock fuel 0 st st' h
    exact ⟨n, st', hn, hne⟩
  · rintro ⟨n, st', hn, hne⟩
    obtain ⟨fuel, st2, hf⟩ := runTicks_empty_terminates act clock n 0 st st' hn hne
    exact ⟨fuel, st2, hf⟩

/-- Witness for C2 at a concrete behavior, clock and state. -/
theorem loop_terminates_iff_registry_empty_witness :
    loopTerminates actW (fun _ => 1) stC6 ↔
      ∃ (n : Nat) (st' : System Nat Nat Nat),
        runTicks actW (fun _ => 1) 0 (n + 1) stC6 = some st' ∧
          st'.actors.isEmpty = true :=
  loop_terminates_iff_registry_empty actW (fun _ => 1) stC6

/-! ### Tags that are never bound -/

theorem removeKey_eq_of_lookup_none {V : Type} (u : T) (l : List (T × V))
    (h : lookup u l = none) : removeKey u l = l := by
  induction l with
  | nil => rfl
  | cons p rest ih =>
      obtain ⟨pk, pv⟩ := p
      by_cases hp : pk = u
      · rw [lookup, if_pos hp] at h
        cases h
      · rw [lookup, if_neg hp] at h
        rw [removeKey, if_neg hp, ih h]

theorem applyAction_unbound (u : T) (st : System T A M) (a : Action T A M)
    (h1 : lookup u st.actors = none) (ha : ∀ x : A, a ≠ Action.Bind u x) :
    lookup u (applyAction st a).actors = none := by
  cases a with
  | Bind t a0 =>
      have ht : ¬ (t = u) := fun he => ha a0 (by rw [he])
      simp [applyAction, lookup_update, ht, h1]
  | Send t m => exact h1
  | Post t m d => exact h1
  | Stop t => simp [applyAction, lookup_removeKey, h1]

theorem foldl_applyAction_unbound (u : T) (l : List (Action T A M)) :
    ∀ st : System T A M, lookup u st.actors = none →
      (∀ x : A, Action.Bind u x ∉ l) →
      lookup u (l.foldl applyAction st).actors = none := by
  induction l with
  | nil =>
      intro st h1 _
      exact h1
  | cons a rest ih =>
      intro st h1 hl
      rw [List.foldl_cons]
      apply ih
      · apply applyAction_unbound u st a h1
        intro x he
        exact hl x (he ▸ List.mem_cons_self a rest)
      · intro x hx
        exact hl x (List.mem_cons_of_mem a hx)

theorem handle_actions_unbound (u : T) (st : System T A M)
    (h0 : unboundOK u st) : unboundOK u (handle_actions st) := by
  obtain ⟨h1, h2, h3⟩ := h0
  refine ⟨?_, ?_, ?_⟩
  · rw [handle_actions]
    exact foldl_applyAction_unbound u st.inbox _ h1 h2
  · intro x hx
    rw [handle_actions_inbox] at hx
    cases hx
  · intro e he
    rw [handle_actions_log] at he
    exact h3 e he

theorem fireOne_unbound (u : T) (st : System T A M) (e : Nat × T × M)
    (hact : neverBinds act u) (h0 : unboundOK u st) :
    unboundOK u (fireOne act st e) := by
  obtain ⟨h1, h2, h3⟩ := h0
  rw [fireOne]
  cases hx : lookup e.2.1 st.actors with
  | none => exact ⟨h1, h2, h3⟩
  | some a =>
      have hne : ¬ (e.2.1 = u) := by
        intro he
        rw [he, h1] at hx
        cases hx
      refine ⟨?_, ?_, ?_⟩
      · simp [lookup_update, hne, h1]
      · intro x hx2
        rcases List.mem_append.mp hx2 with hmem | hmem
        · exact h2 x hmem
        · exact hact _ _ _ _ x hmem
      · intro ev hev
        rcases List.mem_append.mp hev with hmem | hmem
        · exact h3 ev hmem
        · simp only [List.mem_singleton] at hmem
          rw [hmem]
          exact hne

theorem foldl_fireOne_unbound (u : T) (l : List (Nat × T × M))
    (hact : neverBinds act u) :
    ∀ st : System T A M, unboundOK u st →
      unboundOK u (l.foldl (fireOne act) st) := by
  induction l with
  | nil =>
      intro st h0
      exact h0
  | cons e rest ih =>
      intro st h0
      rw [List.foldl_cons]
      exact ih _ (fireOne_unbound act u st e hact h0)

/-- The full value of a returned timer phase: the due prefix folded over
`fireOne`, the rest kept. -/
theorem handle_posts_value (st st' : System T A M)
    (h : handle_posts act st = some st') :
    st' = (st.posted.takeWhile fun e => decide (e.1 ≤ st.millis)).foldl (fireOne act)
        { st with posted := st.posted.dropWhile fun e => decide (e.1 ≤ st.millis) } := by
  obtain ⟨ac, qs, ps, ms, ib, lg⟩ := st
  rw [handle_posts] at h
  by_cases hp : List.isEmpty ps
  · rw [if_pos hp] at h
    injection h with h2
    have hpl : ps = [] := List.isEmpty_iff.mp hp
    subst hpl
    rw [← h2]
    rfl
  · rw [if_neg hp] at h
    exact handle_posts_aux_eq act _ _ _ h

theorem handle_posts_unbound (u : T) (st st' : System T A M)
    (hact : neverBinds act u) (h : handle_posts act st = some st')
    (h0 : unboundOK u st) : unboundOK u st' := by
  rw [handle_posts_value act st st' h]
  apply foldl_fireOne_unbound act u _ hact
  exact ⟨h0.1, h0.2.1, h0.2.2⟩

theorem stepMailbox_unbound (u : T) (st : System T A M) (pr : T × List M)
    (hact : neverBinds act u) (h0 : unboundOK u st) :
    unboundOK u ((stepMailbox act st pr).1) := by
  obtain ⟨h1, h2, h3⟩ := h0
  obtain ⟨pk, q⟩ := pr
  cases q with
  | nil => exact ⟨h1, h2, h3⟩
  | cons m rest =>
      rw [stepMailbox]
      cases hx : lookup pk st.actors with
      | none => exact ⟨h1, h2, h3⟩
      | some a =>
          have hne : ¬ (pk = u) := by
            intro he
            rw [he, h1] at hx
            cases hx
          refine ⟨?_, ?_, ?_⟩
          · simp [lookup_update, hne, h1]
          · intro x hx2
            rcases List.mem_append.mp hx2 with hmem | hmem
            · exact h2 x hmem
            · exact hact _ _ _ _ x hmem
          · intro ev hev
            rcases List.mem_append.mp hev with hmem | hmem
            · exact h3 ev hmem
            · simp only [List.mem_singleton] at hmem
              rw [hmem]
              exact hne

theorem mapAccum_stepMailbox_unbound (u : T) (pairs : List (T × List M))
    (hact : neverBinds act u) :
    ∀ st : System T A M, unboundOK u st →
      unboundOK u ((mapAccum (stepMailbox act) st pairs).1) := by
  induction pairs with
  | nil =>
      intro st h0
      exact h0
  | cons p ps ih =>
      intro st h0
      rw [mapAccum]
      simp only []
      exact ih _ (stepMailbox_unbound act u st p hact h0)

theorem handle_actors_unbound (u : T) (st : System T A M)
    (hact : neverBinds act u) (h0 : unboundOK u st) :
    unboundOK u (handle_actors act st) := by
  rw [handle_actors]
  have h := mapAccum_stepMailbox_unbound act u st.queues hact st h0
  exact ⟨h.1, h.2.1, h.2.2⟩

theorem tick_unbound (u : T) (w : Nat) (st st' : System T A M)
    (hact : neverBinds act u) (h : tick act w st = some st')
    (h0 : unboundOK u st) : unboundOK u st' := by
  rw [tick] at h
  cases hp : handle_posts act (handle_actions { st with millis := w % U32 }) with
  | none =>
      rw [hp] at h
      cases h
  | some s2 =>
      rw [hp] at h
      injection h with h2
      rw [← h2]
      apply handle_actors_unbound act u s2 hact
      apply handle_posts_unbound act u _ s2 hact hp
      apply handle_actions_unbound u _
      exact ⟨h0.1, h0.2.1, h0.2.2⟩

theorem runTicks_unbound (u : T) (n : Nat) (hact : neverBinds act u) :
    ∀ (k : Nat) (st st' : System T A M),
      runTicks act clock k n st = some st' → unboundOK u st → unboundOK u st' := by
  induction n with
  | zero =>
      intro k st st' h h0
      injection h with h2
      rw [← h2]
      exact h0
  | succ n ih =>
      intro k st st' h h0
      rw [runTicks] at h
      cases ht : tick act (clock k) st with
      | none => simp [ht] at h
      | some s2 =>
          rw [ht, Option.some_bind] at h
          exact ih (k + 1) s2 st' h (tick_unbound act u (clock k) st s2 hact ht h0)

/-- C6, counterexample to the termination clause. Tag 7 is never bound,
yet with the wall clock at `u32::MAX` the loop runs forever on `stU`
(the drained Post leaves a delayed entry that drives the timer phase
into its sentinel spin), while the identical state without that Post
action terminates at once: the presence of a `post` targeting a
never-bound tag can prevent loop termination even though the registry
is empty throughout. -/
theorem unbound_post_blocks_loop_at_max :
    lookup 7 stU.actors = none ∧
    ¬ loopTerminates actW clockMax stU ∧
    loopTerminates actW clockMax { stU with inbox := [] } := by
  refine ⟨rfl, ?_, ?_⟩
  · rintro ⟨fuel, st', h⟩
    have ht : tick actW (clockMax 0) stU = none := by decide
    cases fuel with
    | zero => cases h
    | succ fuel =>
        rw [action_loop, ht] at h
        cases h
  · exact ⟨1, stUdone, by decide⟩

/-- C6 as amended. For a tag `u` that is never bound (no live actor, no
buffered `Bind`, and the behavior never emits one): a drained `Stop(u)`
is a literal no-op on the state; across any completed run, `u` never has
a live actor and no `act` invocation ever carries `u` (drained `Send`s
and `Post`s for `u` are observationally no-ops); and whenever some
completed iteration leaves the registry empty the loop terminates —
provided iterations complete at all (at tick time `u32::MAX` a pending
delayed entry for `u` can make the timer phase spin forever, see the
counterexample and C9). -/
theorem unbound_tag_actions_noop (u : T) (st : System T A M)
    (hact : neverBinds act u) (h0 : unboundOK u st) :
    (∀ st2 : System T A M, lookup u st2.actors = none →
      applyAction st2 (Action.Stop u) = st2) ∧
    (∀ (k n : Nat) (st' : System T A M),
      runTicks act clock k n st = some st' → unboundOK u st') ∧
    (∀ (k n : Nat) (st' : System T A M),
      runTicks act clock k (n + 1) st = some st' → st'.actors.isEmpty = true →
      ∃ fuel st2, action_loop act clock k fuel st = some st2) := by
  refine ⟨?_, ?_, ?_⟩
  · intro st2 h
    simp only [applyAction]
    rw [removeKey_eq_of_lookup_none u st2.actors h]
  · intro k n st' h
    exact runTicks_unbound act clock u n hact k st st' h h0
  · intro k n st' h he
    exact runTicks_empty_terminates act clock n k st st' h he

/-- Witness for the amended C6 with the wall clock pinned at 1: after
one tick the state still avoids tag 7 everywhere, and the loop
terminates because the registry is empty. -/
theorem unbound_tag_actions_noop_witness :
    applyAction stMax (Action.Stop 7) = stMax ∧
    unboundOK 7 stC6done ∧
    ∃ fuel st2, action_loop actW (fun _ => 1) 0 fuel stC6 = some st2 := by
  have hact : neverBinds actW 7 := by
    intro a t now m x hx
    simp [actW] at hx
  have h0 : unboundOK 7 stC6 := by
    refine ⟨rfl, ?_, ?_⟩
    · intro x hx
      simp [stC6] at hx
    · intro e he
      simp [stC6] at he
  have h := unbound_tag_actions_noop actW (fun _ => 1) 7 stC6 hact h0
  refine ⟨h.1 stMax (by decide), ?_, ?_⟩
  · exact h.2.1 0 1 stC6done (by decide)
  · exact h.2.2 0 0 stC6done (by decide) (by decide)

/-! ### Ghost timestamps: a message is never observed before it was sent -/

theorem lookup_mem {V : Type} (t : T) (l : List (T × V)) (v : V)
    (h : lookup t l = some v) : (t, v) ∈ l := by
  induction l with
  | nil => cases h
  | cons p rest ih =>
      obtain ⟨pk, pv⟩ := p
      by_cases hp : pk = t
      · rw [lookup, if_pos hp] at h
        injection h with h2
        rw [← hp, ← h2]
        exact List.mem_cons_self _ _
      · rw [lookup, if_neg hp] at h
        exact List.mem_cons_of_mem _ (ih h)

theorem mem_update {V : Type} (t : T) (v : V) (l : List (T × V))
    (p : T × V) (h : p ∈ update t v l) : p = (t, v) ∨ p ∈ l := by
  induction l with
  | nil => simpa [update] using h
  | cons q rest ih =>
      obtain ⟨qk, qv⟩ := q
      by_cases hq : qk = t
      · rw [update, if_pos hq] at h
        rcases List.mem_cons.mp h with h2 | h2
        · left
          rw [h2, hq]
        · right
          exact List.mem_cons_of_mem _ h2
      · rw [update, if_neg hq] at h
        rcases List.mem_cons.mp h with h2 | h2
        · right
          rw [h2]
          exact List.mem_cons_self _ _
        · rcases ih h2 with h3 | h3
          · left
            exact h3
          · right
            exact List.mem_cons_of_mem _ h3

omit [DecidableEq T] in
theorem stamped_raise (stamp : M → Nat) (st : System T A M) (w : Nat)
    (h : Stamped stamp st) (hw : st.millis ≤ w) :
    Stamped stamp { st with millis := w } := by
  obtain ⟨h1, h2, h3, h4⟩ := h
  refine ⟨?_, ?_, ?_, h4⟩
  · intro a ha
    exact Nat.le_trans (h1 a ha) hw
  · intro p hp m hm
    exact Nat.le_trans (h2 p hp m hm) hw
  · intro e he
    exact Nat.le_trans (h3 e he) hw

theorem applyAction_stamped (stamp : M → Nat) (st : System T A M)
    (a : Action T A M) (h : Stamped stamp st)
    (ha : actionStamp stamp a ≤ st.millis) :
    Stamped stamp (applyAction st a) := by
  obtain ⟨h1, h2, h3, h4⟩ := h
  cases a with
  | Bind t a0 => exact ⟨h1, h2, h3, h4⟩
  | Send t m =>
      refine ⟨h1, ?_, h3, h4⟩
      intro p hp m0 hm0
      rcases mem_update t _ st.queues p hp with h5 | h5
      · rw [h5] at hm0
        rcases List.mem_append.mp hm0 with h6 | h6
        · cases hq : lookup t st.queues with
          | none =>
              rw [hq] at h6
              cases h6
          | some q0 =>
              rw [hq] at h6
              exact h2 (t, q0) (lookup_mem t st.queues q0 hq) m0 h6
        · simp only [List.mem_singleton] at h6
          rw [h6]
          exact ha
      · exact h2 p h5 m0 hm0
  | Post t m d =>
      refine ⟨h1, h2, ?_, h4⟩
      intro e he
      have he2 := (mem_heapPush ((d + st.millis) % U32, t, m) e st.posted).mp he
      rcases he2 with he2 | he2
      · rw [he2]
        exact ha
      · exact h3 e he2
  | Stop t =>
      refine ⟨h1, h2, h3, h4⟩

theorem foldl_applyAction_stamped (stamp : M → Nat) (l : List (Action T A M)) :
    ∀ st : System T A M, Stamped stamp st →
      (∀ a ∈ l, actionStamp stamp a ≤ st.millis) →
      Stamped stamp (l.foldl applyAction st) := by
  induction l with
  | nil =>
      intro st h _
      exact h
  | cons a rest ih =>
      intro st h hl
      rw [List.foldl_cons]
      apply ih
      · exact applyAction_stamped stamp st a h (hl a (List.mem_cons_self a rest))
      · intro x hx
        rw [applyAction_millis]
        exact hl x (List.mem_cons_of_mem a hx)

theorem handle_actions_stamped (stamp : M → Nat) (st : System T A M)
    (h : Stamped stamp st) : Stamped stamp (handle_actions st) := by
  obtain ⟨h1, h2, h3, h4⟩ := h
  rw [handle_actions]
  apply foldl_applyAction_stamped
  · refine ⟨?_, h2, h3, h4⟩
    intro a ha
    cases ha
  · exact h1

theorem fireOne_stamped (stamp : M → Nat) (st : System T A M)
    (e : Nat × T × M) (hok : stampsOK act stamp) (h : Stamped stamp st)
    (he : stamp e.2.2 ≤ st.millis) : Stamped stamp (fireOne act st e) := by
  obtain ⟨h1, h2, h3, h4⟩ := h
  rw [fireOne]
  cases hx : lookup e.2.1 st.actors with
  | none => exact ⟨h1, h2, h3, h4⟩
  | some a =>
      refine ⟨?_, h2, h3, ?_⟩
      · intro x hx2
        rcases List.mem_append.mp hx2 with hmem | hmem
        · exact h1 x hmem
        · exact hok _ _ _ _ x hmem
      · intro ev hev
        rcases List.mem_append.mp hev with hmem | hmem
        · exact h4 ev hmem
        · simp only [List.mem_singleton] at hmem
          rw [hmem]
          exact he

theorem foldl_fireOne_stamped (stamp : M → Nat) (l : List (Nat × T × M))
    (hok : stampsOK act stamp) :
    ∀ st : System T A M, Stamped stamp st →
      (∀ e ∈ l, stamp e.2.2 ≤ st.millis) →
      Stamped stamp (l.foldl (fireOne act) st) := by
  induction l with
  | nil =>
      intro st h _
      exact h
  | cons e rest ih =>
      intro st h hl
      rw [List.foldl_cons]
      apply ih
      · exact fireOne_stamped act stamp st e hok h (hl e (List.mem_cons_self e rest))
      · intro x hx
        rw [fireOne_millis]
        exact hl x (List.mem_cons_of_mem e hx)

theorem handle_posts_stamped (stamp : M → Nat) (st st' : System T A M)
    (hok : stampsOK act stamp) (hp : handle_posts act st = some st')
    (h : Stamped stamp st) : Stamped stamp st' := by
  rw [handle_posts_value act st st' hp]
  apply foldl_fireOne_stamped act stamp _ hok
  · obtain ⟨h1, h2, h3, h4⟩ := h
    refine ⟨h1, h2, ?_, h4⟩
    intro e he
    exact h3 e ((List.dropWhile_sublist _).subset he)
  · intro e he
    exact h.2.2.1 e ((List.takeWhile_sublist _).subset he)

theorem stepMailbox_stamped (stamp : M → Nat) (st : System T A M)
    (pr : T × List M) (hok : stampsOK act stamp) (h : Stamped stamp st)
    (hpr : ∀ m ∈ pr.2, stamp m ≤ st.millis) :
    Stamped stamp ((stepMailbox act st pr).1) := by
  obtain ⟨h1, h2, h3, h4⟩ := h
  obtain ⟨pk, q⟩ := pr
  cases q with
  | nil => exact ⟨h1, h2, h3, h4⟩
  | cons m rest =>
      rw [stepMailbox]
      cases hx : lookup pk st.actors with
      | none => exact ⟨h1, h2, h3, h4⟩
      | some a =>
          refine ⟨?_, h2, h3, ?_⟩
          · intro x hx2
            rcases List.mem_append.mp hx2 with hmem | hmem
            · exact h1 x hmem
            · exact hok _ _ _ _ x hmem
          · intro ev hev
            rcases List.mem_append.mp hev with hmem | hmem
            · exact h4 ev hmem
            · simp only [List.mem_singleton] at hmem
              rw [hmem]
              exact hpr m (List.mem_cons_self m rest)

theorem mapAccum_stepMailbox_stamped (stamp : M → Nat)
    (pairs : List (T × List M)) (hok : stampsOK act stamp) :
    ∀ st : System T A M, Stamped stamp st →
      (∀ p ∈ pairs, ∀ m ∈ p.2, stamp m ≤ st.millis) →
      Stamped stamp ((mapAccum (stepMailbox act) st pairs).1) := by
  induction pairs with
  | nil =>
      intro st h _
      exact h
  | cons p ps ih =>
      intro st h hl
      rw [mapAccum]
      simp only []
      apply ih
      · exact stepMailbox_stamped act stamp st p hok h
          (hl p (List.mem_cons_self p ps))
      · intro x hx m hm
        rw [stepMailbox_millis]
        exact hl x (List.mem_cons_of_mem p hx) m hm

theorem handle_actors_stamped (stamp : M → Nat) (st : System T A M)
    (hok : stampsOK act stamp) (h : Stamped stamp st) :
    Stamped stamp (handle_actors act st) := by
  rw [handle_actors]
  have hacc := mapAccum_stepMailbox_stamped act stamp st.queues hok st h h.2.1
  obtain ⟨h1, _, h3, h4⟩ := hacc
  refine ⟨h1, ?_, h3, h4⟩
  intro p hp m hm
  rw [mapAccum_stepMailbox_queues] at hp
  obtain ⟨p0, hp0, hpe⟩ := List.mem_map.mp hp
  rw [mapAccum_stepMailbox_millis]
  have hm0 : m ∈ p0.2 := by
    rw [← hpe] at hm
    exact (List.drop_sublist 1 p0.2).subset hm
  exact h.2.1 p0 hp0 m hm0

theorem tick_stamped (stamp : M → Nat) (w : Nat) (st st' : System T A M)
    (hok : stampsOK act stamp) (ht : tick act w st = some st')
    (h : Stamped stamp st) (hw : st.millis ≤ w % U32) : Stamped stamp st' := by
  rw [tick] at ht
  cases hp : handle_posts act (handle_actions { st with millis := w % U32 }) with
  | none =>
      rw [hp] at ht
      cases ht
  | some s2 =>
      rw [hp] at ht
      injection ht with h2
      rw [← h2]
      apply handle_actors_stamped act stamp s2 hok
      apply handle_posts_stamped act stamp _ s2 hok hp
      apply handle_actions_stamped
      exact stamped_raise stamp st (w % U32) h hw

theorem runTicks_stamped (stamp : M → Nat) (n : Nat)
    (hok : stampsOK act stamp)
    (hmono : ∀ j, clock j % U32 ≤ clock (j + 1) % U32) :
    ∀ (k : Nat) (st st' : System T A M),
      runTicks act clock k n st = some st' → Stamped stamp st →
      st.millis ≤ clock k % U32 → Stamped stamp st' := by
  induction n with
  | zero =>
      intro k st st' h hst _
      injection h with h2
      rw [← h2]
      exact hst
  | succ n ih =>
      intro k st st' h hst hw
      rw [runTicks] at h
      cases ht : tick act (clock k) st with
      | none => simp [ht] at h
      | some s2 =>
          rw [ht, Option.some_bind] at h
          apply ih (k + 1) s2 st' h
          · exact tick_stamped act stamp (clock k) st s2 hok ht hst hw
          · rw [tick_millis act (clock k) st s2 ht]
            exact hmono k

/-- C8, as amended. If every sender stamps each submitted message with
the tick time it observes from its Context (`stampsOK`: every emitted
`Send`/`Post` carries a stamp ≤ the `now` passed to `act`) and the
starting state is `Stamped`, then — provided the tick times, i.e. the
wall clock samples after the code's own `as u32` truncation, are
nondecreasing over the run — every `act` invocation in any completed
run receives a message whose send stamp is ≤ the `now()` of that
invocation: a message sent while the sender observed tick time `t` is
never observed by `act` on a tick with `now() < t`. Without that
proviso the property fails: the truncated tick time wraps every `2^32`
ms even under a strictly increasing wall clock, and a stale message can
then be observed earlier (see the wrap counterexample). -/
theorem send_never_observed_earlier (stamp : M → Nat) (k : Nat)
    (st : System T A M) (hok : stampsOK act stamp)
    (hmono : ∀ j, clock j % U32 ≤ clock (j + 1) % U32)
    (hst : Stamped stamp st) (hw : st.millis ≤ clock k % U32) :
    ∀ (n : Nat) (st' : System T A M), runTicks act clock k n st = some st' →
      ∀ e ∈ st'.log, stamp e.2.2 ≤ e.2.1 := by
  intro n st' h e he
  exact (runTicks_stamped act clock stamp n hok hmono k st st' h hst hw).2.2.2 e he

/-- C8, counterexample to the original claim. Under the strictly
increasing wall clock `clockWrap`, which crosses the `2^32` ms boundary
between its two samples, the behavior `act8` (which stamps every sent
message with the `now()` it observes) sends a message while observing
tick time 4294967290, and that message is dispatched on the next tick
with `now() = 5 < 4294967290`: the logged invocation
`(0, 5, 4294967290)` receives a message whose send time exceeds its
`now()`, so the claim as stated is false of this reachable run. -/
theorem send_observed_earlier_on_wrap :
    clockWrap 0 < clockWrap 1 ∧
    stampsOK act8 (fun m => m) ∧
    Stamped (fun m => m) st8w ∧
    runTicks act8 clockWrap 0 2 st8w = some st8wdone ∧
    (0, 5, 4294967290) ∈ st8wdone.log ∧
    ¬ (∀ e ∈ st8wdone.log, (fun m : Nat => m) e.2.2 ≤ e.2.1) := by
  refine ⟨by decide, ?_, by decide, by decide, by decide, by decide⟩
  intro a t now m x hx
  simp only [act8, List.mem_singleton] at hx
  rw [hx]
  simp [actionStamp]

/-- Witness for the amended C8: the message sent at tick time 5 is
observed at `now() = 10 ≥ 5`. -/
theorem send_never_observed_earlier_witness :
    stampsOK act8 (fun m => m) ∧ (5 : Nat) ≤ 10 := by
  have hok : stampsOK act8 (fun m => m) := by
    intro a t now m x hx
    simp only [act8, List.mem_singleton] at hx
    rw [hx]
    simp [actionStamp]
  refine ⟨hok, ?_⟩
  have h := send_never_observed_earlier act8 (fun _ => 10) (fun m => m) 0 st8
    hok (fun j => Nat.le_refl _) (by decide) (by decide) 1 st8done (by decide)
    (0, 10, 5) (by decide)
  exact h

end DMA
